import Mathlib

/-!
Verification development for the `zipfs` package: a read-only filesystem
over a zip archive (index construction, path handling, directory listing,
sub-tree views, reader handles).  Go strings are modelled as Lean `String`
(archive names are treated as well-formed text), Go maps as functions
`String → Option _`, and the stateful readers as explicit state passing.
-/

namespace Zipfs

/-! ### Path handling (models Go `path.Clean`, `path.Dir`, `path.Base`,
`path.Join`, `io/fs.ValidPath`, `strings.TrimPrefix`) -/

/-- Split a character list on `'/'` separators (the list of path elements,
as in the element loop of `fs.ValidPath` and the lazybuf scan of
`path.Clean`).  Always returns a nonempty list of segments. -/
def splitSegs : List Char → List (List Char)
  | [] => [[]]
  | c :: rest =>
    if c = '/' then [] :: splitSegs rest
    else
      match splitSegs rest with
      | [] => [[c]]
      | s :: ss => (c :: s) :: ss

/-- Rejoin segments with `'/'`; inverse of `splitSegs`. -/
def joinSegs : List (List Char) → List Char
  | [] => []
  | [s] => s
  | s :: ss => s ++ '/' :: joinSegs ss

/-- All path elements are nonempty and none is `"."` or `".."` (the element
check of `fs.ValidPath`). -/
def allGoodSegs (segs : List (List Char)) : Bool :=
  segs.all fun s => !s.isEmpty && s ≠ ['.'] && s ≠ ['.', '.']

/-- The element-processing loop of Go `path.Clean`: skip empty and `"."`
elements, let `".."` pop the output stack (or survive at the start of a
relative path, or vanish at the root of a rooted path), push everything
else.  `out` is the output stack in reverse order. -/
def cleanAux (rooted : Bool) : List (List Char) → List (List Char) → List (List Char)
  | [], out => out.reverse
  | s :: rest, out =>
    if s.isEmpty || s = ['.'] then cleanAux rooted rest out
    else if s = ['.', '.'] then
      (match out with
       | [] => if rooted then cleanAux rooted rest [] else cleanAux rooted rest [['.', '.']]
       | o :: os =>
         if o = ['.', '.'] then cleanAux rooted rest (['.', '.'] :: o :: os)
         else cleanAux rooted rest os)
    else cleanAux rooted rest (s :: out)

/-- Go `path.Clean` on a character list. -/
def cleanChars (cs : List Char) : List Char :=
  if cs.isEmpty then ['.']
  else
    let rooted : Bool := decide (cs.head? = some '/')
    let body := joinSegs (cleanAux rooted (splitSegs cs) [])
    if rooted then '/' :: body
    else if body.isEmpty then ['.'] else body

/-- Go `path.Base` on a character list: strip trailing slashes, then keep
everything after the last slash. -/
def baseChars (cs : List Char) : List Char :=
  if cs.isEmpty then ['.']
  else
    let r := cs.reverse.dropWhile (· = '/')
    if r.isEmpty then ['/']
    else (r.takeWhile (· ≠ '/')).reverse

/-- Go `path.Dir` on a character list: everything up to and including the
last slash, Cleaned. -/
def dirChars (cs : List Char) : List Char :=
  cleanChars ((cs.reverse.dropWhile (· ≠ '/')).reverse)

/-- Go `path.Join` for two elements: skip empty ones, join with `'/'`,
Clean the result (`""` when both are empty). -/
def joinChars (a b : List Char) : List Char :=
  if a.isEmpty && b.isEmpty then []
  else if a.isEmpty then cleanChars b
  else if b.isEmpty then cleanChars a
  else cleanChars (a ++ '/' :: b)

def cleanStr (s : String) : String := ⟨cleanChars s.toList⟩
def baseStr (s : String) : String := ⟨baseChars s.toList⟩
def dirStr (s : String) : String := ⟨dirChars s.toList⟩
def joinStr (a b : String) : String := ⟨joinChars a.toList b.toList⟩

/-- Go `io/fs.ValidPath`: `"."`, or slash-separated elements that are all
nonempty and none of which is `"."` or `".."`.  (The UTF-8 validity check
of the Go original is vacuous here: Lean strings are well-formed.) -/
def validPath (s : String) : Bool :=
  s = "." || allGoodSegs (splitSegs s.toList)

/-- Boolean "p is a leading run of s" (supports `strings.TrimPrefix`). -/
def hasPre : List Char → List Char → Bool
  | [], _ => true
  | _ :: _, [] => false
  | a :: as, b :: bs => a = b && hasPre as bs

/-- Go `strings.TrimPrefix s p`: remove the leading `p` from `s` when
present, otherwise return `s` unchanged. -/
def trimPre (s p : String) : String :=
  if hasPre p.toList s.toList then ⟨s.toList.drop p.toList.length⟩ else s

/-- Whether a (cleaned) path starts with `'/'` — the absolute-path test
`name[0] == '/'` of `buildIndex`. -/
def startsSlash (s : String) : Bool := s.toList.head? = some '/'

/-! ### Basic path lemmas -/

theorem splitSegs_ne_nil (cs : List Char) : splitSegs cs ≠ [] := by
  induction cs with
  | nil => simp [splitSegs]
  | cons c rest ih =>
    simp only [splitSegs]
    split
    · simp
    · cases h : splitSegs rest with
      | nil => simp
      | cons s ss => simp

theorem joinSegs_splitSegs (cs : List Char) : joinSegs (splitSegs cs) = cs := by
  induction cs with
  | nil => rfl
  | cons c rest ih =>
    simp only [splitSegs]
    split
    · rename_i hc
      cases h : splitSegs rest with
      | nil => exact absurd h (splitSegs_ne_nil rest)
      | cons s ss =>
        rw [h] at ih
        simp [joinSegs, ih, hc]
    · cases h : splitSegs rest with
      | nil => exact absurd h (splitSegs_ne_nil rest)
      | cons s ss =>
        rw [h] at ih
        cases ss with
        | nil => simp_all [joinSegs]
        | cons s2 ss2 => simp_all [joinSegs]

theorem splitSegs_append (a b : List Char) :
    splitSegs (a ++ '/' :: b) = splitSegs a ++ splitSegs b := by
  induction a with
  | nil => simp [splitSegs]
  | cons c rest ih =>
    by_cases hc : c = '/'
    · simp [splitSegs, hc, ih]
    · simp only [List.cons_append, splitSegs, if_neg hc, List.append_eq]
      rw [ih]
      cases h : splitSegs rest with
      | nil => exact absurd h (splitSegs_ne_nil rest)
      | cons s ss => simp

theorem cleanAux_allGood_append (r : Bool) (segs : List (List Char))
    (h : allGoodSegs segs = true) (tail acc : List (List Char)) :
    cleanAux r (segs ++ tail) acc = cleanAux r tail (segs.reverse ++ acc) := by
  induction segs generalizing acc with
  | nil => simp
  | cons s rest ih =>
    simp only [allGoodSegs, List.all_cons, Bool.and_eq_true] at h
    obtain ⟨⟨⟨h1, h2⟩, h2'⟩, h3⟩ := h
    have hE : s.isEmpty = false := by simpa using h1
    have hdot : s ≠ ['.'] := by simpa using h2
    have hdd : s ≠ ['.', '.'] := by simpa using h2'
    have h3' : allGoodSegs rest = true := by simpa [allGoodSegs] using h3
    simp only [List.cons_append, cleanAux, hE, hdot, hdd, Bool.false_or, decide_eq_true_eq,
      if_neg, if_false, decide_false_eq_false, Bool.false_eq_true, List.append_eq]
    rw [ih h3']
    simp

theorem cleanAux_allGood (r : Bool) (segs : List (List Char))
    (h : allGoodSegs segs = true) :
    cleanAux r segs [] = segs := by
  have := cleanAux_allGood_append r segs h [] []
  simpa [cleanAux] using this

theorem allGood_head_ne_slash {cs : List Char} (h : allGoodSegs (splitSegs cs) = true) :
    cs.head? ≠ some '/' := by
  cases cs with
  | nil => simp
  | cons c rest =>
    intro hc
    simp only [List.head?_cons, Option.some.injEq] at hc
    simp [splitSegs, hc, allGoodSegs] at h

theorem allGood_ne_nil {cs : List Char} (h : allGoodSegs (splitSegs cs) = true) :
    cs ≠ [] := by
  intro hcs
  subst hcs
  simp [splitSegs, allGoodSegs] at h

/-- On element-wise good paths, `path.Clean` is the identity. -/
theorem cleanChars_of_good {cs : List Char} (h : allGoodSegs (splitSegs cs) = true) :
    cleanChars cs = cs := by
  have hne := allGood_ne_nil h
  have hhead := allGood_head_ne_slash h
  simp only [cleanChars, List.isEmpty_eq_true, if_neg hne]
  have hr : decide (cs.head? = some '/') = false := decide_eq_false hhead
  simp only [hr]
  rw [cleanAux_allGood _ _ h, joinSegs_splitSegs]
  simp [hne]

theorem toList_mk (l : List Char) : (⟨l⟩ : String).toList = l := rfl

theorem toList_append (a b : String) : (a ++ b).toList = a.toList ++ b.toList := rfl

/-- A valid path is already clean (`path.Clean` fixes it). -/
theorem cleanStr_of_valid {s : String} (h : validPath s = true) : cleanStr s = s := by
  simp only [validPath, Bool.or_eq_true, decide_eq_true_eq] at h
  rcases h with h | h
  · subst h; rfl
  · show (⟨cleanChars s.toList⟩ : String) = s
    rw [cleanChars_of_good h]
    obtain ⟨d⟩ := s
    rfl

/-! ### Data model (`zip.File` records, entries, directories, the index) -/

/-- One raw archive record, as seen by `buildIndex`: the header name, the
declared uncompressed size, the mode bits reported by `f.FileInfo()`, and
its modification time. -/
structure FileHeader where
  name : String
  uncompressedSize : Nat
  mode : Nat
  modTime : Nat
  deriving DecidableEq, Repr

/-- A directory entry as observable through the `fs.DirEntry` interface:
either a `fileEntry` wrapping a raw record, or a (pointer to a) `dirInfo`,
observable through its name and modification time. -/
inductive Entry where
  | fileE (file : FileHeader)
  | dirE (name : String) (modTime : Nat)
  deriving DecidableEq, Repr

/-- `fileEntry.Name` returns `path.Base` of the raw record name;
`dirInfo.Name` returns the stored name. -/
def Entry.entryName : Entry → String
  | .fileE f => baseStr f.name
  | .dirE n _ => n

/-- `dirInfo`: name, modification time and the accumulated child list. -/
structure DirData where
  name : String
  modTime : Nat
  entries : List Entry
  deriving DecidableEq, Repr

/-- The `ZipFS` index: the `files` and `dirs` maps (Go maps modelled as
functions into `Option`). -/
structure ZipFS where
  files : String → Option FileHeader
  dirs : String → Option DirData

def ZipFS.insertFile (z : ZipFS) (k : String) (f : FileHeader) : ZipFS :=
  { z with files := fun x => if x = k then some f else z.files x }

def ZipFS.insertDir (z : ZipFS) (k : String) (d : DirData) : ZipFS :=
  { z with dirs := fun x => if x = k then some d else z.dirs x }

/-- The parent-directory walk of `buildIndex`: starting from the leaf's
parent path, append the entry to the first directory that already exists,
creating missing intermediate directories on the way up.  The Go `for`
loop always terminates because repeated `path.Dir` reaches `"."`; here the
recursion carries fuel that is always sufficient for that walk. -/
def walkUp (now : Nat) : Nat → ZipFS → Entry → String → ZipFS
  | 0, z, _, _ => z
  | fuel + 1, z, entry, dir =>
    match z.dirs dir with
    | some parent => z.insertDir dir { parent with entries := parent.entries ++ [entry] }
    | none =>
      let parent : DirData := { name := baseStr dir, modTime := now, entries := [entry] }
      walkUp now fuel (z.insertDir dir parent) (.dirE parent.name parent.modTime) (dirStr dir)

/-- The body of the record loop of `buildIndex`: classify the record,
normalize its path, skip `"."`, absolute paths, and directories with
nonzero declared size, then insert the leaf and walk up to the root. -/
def indexRecord (now : Nat) (z : ZipFS) (f : FileHeader) : ZipFS :=
  let isDir : Bool := f.name.toList.isEmpty || f.name.toList.getLast? = some '/'
  let name := cleanStr f.name
  if name = "." then z
  else if startsSlash name then z
  else if isDir then
    if f.uncompressedSize ≠ 0 then z
    else
      let d : DirData := { name := baseStr name, modTime := f.modTime, entries := [] }
      walkUp now (name.length + 2) (z.insertDir name d) (.dirE d.name d.modTime) (dirStr name)
  else
    walkUp now (name.length + 2) (z.insertFile name f) (.fileE f) (dirStr name)

/-- `NewZipFS` followed by `buildIndex`: start from the index holding only
the root directory `"."` and fold the record list through `indexRecord`. -/
def buildIndex (now : Nat) (records : List FileHeader) : ZipFS :=
  let z0 : ZipFS :=
    { files := fun _ => none
      dirs := fun d => if d = "." then some { name := ".", modTime := now, entries := [] } else none }
  records.foldl (indexRecord now) z0

/-! ### Errors, handles and the filesystem operations -/

/-- Error kinds: `fs.ErrInvalid`, `fs.ErrNotExist` (wrapped in an
`fs.PathError` with operation and path), and the bare `io.EOF` returned by
`dirReader.ReadDir`. -/
inductive ErrKind where
  | invalid
  | notExist
  deriving DecidableEq, Repr

inductive ZErr where
  | pathErr (op : String) (path : String) (kind : ErrKind)
  | eofErr
  deriving DecidableEq, Repr

/-- The result of `Open`: a `dirReader` (directory data plus its reported
path) or a `fileReader` (the raw record). -/
inductive OpenedFile where
  | dirH (info : DirData) (path : String)
  | fileH (file : FileHeader)
  deriving DecidableEq, Repr

/-- `ZipFS.Open`: validate, clean, try the directory map, then the file
map, else `ErrNotExist`. -/
def ZipFS.Open (z : ZipFS) (name : String) : Except ZErr OpenedFile :=
  if ¬ validPath name then .error (.pathErr "open" name .invalid)
  else
    let name' := cleanStr name
    match z.dirs name' with
    | some dir => .ok (.dirH dir name')
    | none =>
      match z.files name' with
      | some f => .ok (.fileH f)
      | none => .error (.pathErr "open" name' .notExist)

/-- Lexicographic comparison of character lists by code point — the
order computed by Go `strings.Compare` (byte order on UTF-8 agrees with
code-point order). -/
def charListLe : List Char → List Char → Bool
  | [], _ => true
  | _ :: _, [] => false
  | a :: as, b :: bs =>
    if a.toNat < b.toNat then true
    else if b.toNat < a.toNat then false
    else charListLe as bs

theorem charListLe_cons {a b : Char} {as bs : List Char} :
    charListLe (a :: as) (b :: bs) = true ↔
      a.toNat < b.toNat ∨ (a.toNat = b.toNat ∧ charListLe as bs = true) := by
  simp only [charListLe]
  by_cases h1 : a.toNat < b.toNat
  · simp [h1]
  · by_cases h2 : b.toNat < a.toNat
    · simp only [if_neg h1, if_pos h2]
      constructor
      · intro h; exact absurd h (by simp)
      · rintro (h | ⟨h, _⟩) <;> omega
    · have he : a.toNat = b.toNat := by omega
      simp [h1, h2, he]

theorem charListLe_total : ∀ a b, charListLe a b = true ∨ charListLe b a = true
  | [], _ => .inl rfl
  | _ :: _, [] => .inr rfl
  | a :: as, b :: bs => by
    rw [charListLe_cons, charListLe_cons]
    rcases Nat.lt_trichotomy a.toNat b.toNat with h | h | h
    · exact .inl (.inl h)
    · rcases charListLe_total as bs with hr | hr
      · exact .inl (.inr ⟨h, hr⟩)
      · exact .inr (.inr ⟨h.symm, hr⟩)
    · exact .inr (.inl h)

theorem charListLe_trans :
    ∀ {a b c}, charListLe a b = true → charListLe b c = true → charListLe a c = true
  | [], _, _, _, _ => rfl
  | _ :: _, [], _, hab, _ => by simp [charListLe] at hab
  | _ :: _, _ :: _, [], _, hbc => by simp [charListLe] at hbc
  | a :: as, b :: bs, c :: cs, hab, hbc => by
    rw [charListLe_cons] at hab hbc ⊢
    rcases hab with h | ⟨he, hr⟩
    · rcases hbc with h' | ⟨he', _⟩
      · exact .inl (by omega)
      · exact .inl (by omega)
    · rcases hbc with h' | ⟨he', hr'⟩
      · exact .inl (by omega)
      · exact .inr ⟨by omega, charListLe_trans hr hr'⟩

/-- The comparison used by `ZipFS.ReadDir`: `strings.Compare` on entry
names. -/
def nameLe (a b : Entry) : Prop :=
  charListLe a.entryName.toList b.entryName.toList = true

instance : DecidableRel nameLe := fun a b =>
  inferInstanceAs (Decidable (charListLe a.entryName.toList b.entryName.toList = true))

instance : IsTotal Entry nameLe :=
  ⟨fun a b => charListLe_total a.entryName.toList b.entryName.toList⟩

instance : IsTrans Entry nameLe := ⟨fun _ _ _ h h' => charListLe_trans h h'⟩

/-- The listing sort of `ZipFS.ReadDir`: a defensive copy of the child
list sorted with `strings.Compare` on names (a deterministic comparison
sort modelling `slices.SortFunc`). -/
def sortEntries (l : List Entry) : List Entry := l.insertionSort nameLe

/-- `ZipFS.ReadDir`: validate, clean, look the directory up, and return a
sorted copy of its children; `ErrNotExist` (with the caller's spelling of
the path) when the path is not an indexed directory. -/
def ZipFS.ReadDir (z : ZipFS) (name : String) : Except ZErr (List Entry) :=
  if ¬ validPath name then .error (.pathErr "readdir" name .invalid)
  else
    match z.dirs (cleanStr name) with
    | none => .error (.pathErr "readdir" name .notExist)
    | some dir => .ok (sortEntries dir.entries)

/-- A sub-filesystem view: the parent `ZipFS` and the stored path of the
sub-tree root (the `parent`/`prefix` fields of Go `subFS`). -/
structure SubFS where
  parent : ZipFS
  pre : String

/-- Result type of `Sub`: the root filesystem itself, or a sub view. -/
inductive FSView where
  | rootV (z : ZipFS)
  | subV (s : SubFS)

/-- `ZipFS.Sub`: validate and clean; `"."` returns the filesystem itself;
otherwise the directory must exist and a fresh `subFS` view is returned. -/
def ZipFS.Sub (z : ZipFS) (dir : String) : Except ZErr FSView :=
  if ¬ validPath dir then .error (.pathErr "sub" dir .invalid)
  else
    let dir' := cleanStr dir
    if dir' = "." then .ok (.rootV z)
    else
      match z.dirs dir' with
      | none => .error (.pathErr "sub" dir' .notExist)
      | some _ => .ok (.subV ⟨z, dir'⟩)

/-- `subFS.rebaseError`: strip the view's `prefix + "/"` from the path
reported inside an `fs.PathError`. -/
def rebaseErr (pre : String) : ZErr → ZErr
  | .pathErr op p k => .pathErr op (trimPre p (pre ++ "/")) k
  | e => e

/-- `subFS.rebaseAny` on an opened file: only `dirReader` carries a path
to rebase; `fileReader` is unchanged. -/
def rebaseFile (pre : String) : OpenedFile → OpenedFile
  | .dirH d p => .dirH d (trimPre p (pre ++ "/"))
  | f => f

/-- `subFS.Open`: validate, delegate to the parent on the joined path,
then rebase the reported paths of the result and of the error. -/
def SubFS.Open (s : SubFS) (name : String) : Except ZErr OpenedFile :=
  if ¬ validPath name then .error (.pathErr "open" name .invalid)
  else
    match s.parent.Open (joinStr s.pre name) with
    | .ok f => .ok (rebaseFile s.pre f)
    | .error e => .error (rebaseErr s.pre e)

/-- `subFS.Sub`: validate, delegate to the parent on the joined path,
rebase a reported error. -/
def SubFS.Sub (s : SubFS) (dir : String) : Except ZErr FSView :=
  if ¬ validPath dir then .error (.pathErr "sub" dir .invalid)
  else
    match s.parent.Sub (joinStr s.pre dir) with
    | .ok v => .ok v
    | .error e => .error (rebaseErr s.pre e)

/-! ### Reader handles -/

/-- `dirReader`: directory data, reported path, and the read cursor. -/
structure DirReader where
  info : DirData
  path : String
  pos : Nat
  deriving DecidableEq, Repr

/-- `dirReader.ReadDir`: `n <= 0` returns all remaining entries and moves
the cursor to the end; `n > 0` returns at most `n` entries from the
cursor, or `io.EOF` when the cursor is at (or past) the end. -/
def DirReader.ReadDir (d : DirReader) (n : Int) : Except ZErr (List Entry) × DirReader :=
  if n ≤ 0 then
    (.ok (d.info.entries.drop d.pos), { d with pos := d.info.entries.length })
  else if d.info.entries.length ≤ d.pos then
    (.error .eofErr, d)
  else
    let stop := min (d.pos + n.toNat) d.info.entries.length
    let es := (d.info.entries.take stop).drop d.pos
    if es.length = 0 then (.error .eofErr, { d with pos := stop })
    else (.ok es, { d with pos := stop })

/-- `dirReader.Close`: always succeeds and resets the cursor. -/
def DirReader.Close (d : DirReader) : Except ZErr Unit × DirReader :=
  (.ok (), { d with pos := 0 })

/-! ### Modes (read-only metadata) -/

/-- Go `a &^ b` (AND NOT) on untyped bit patterns. -/
def andNot (a b : Nat) : Nat := Nat.bitwise (fun x y => x && !y) a b

/-- `roFileInfo.Mode`: the underlying mode with the write bits `0222`
removed. -/
def roModeOf (m : Nat) : Nat := andNot m 0o222

/-- `fs.ModeDir | 0555`, the fixed mode reported by `dirInfo.Mode`. -/
def dirInfoMode : Nat := 2 ^ 31 ||| 0o555

/-- The mode reported by `Stat` on an opened handle: `dirReader.Stat`
returns the `dirInfo` (mode `fs.ModeDir | 0555`), `fileReader.Stat` wraps
the record's info in `roFileInfo`. -/
def OpenedFile.statMode : OpenedFile → Nat
  | .dirH _ _ => dirInfoMode
  | .fileH f => roModeOf f.mode

/-- The mode reported by `DirEntry.Info().Mode()`: `fileEntry.Info` wraps
the record's info in `roFileInfo`; `dirInfo.Info` returns itself. -/
def Entry.infoMode : Entry → Nat
  | .fileE f => roModeOf f.mode
  | .dirE _ _ => dirInfoMode

/-! ### More path lemmas -/

theorem string_ext {a b : String} (h : a.toList = b.toList) : a = b := by
  cases a
  cases b
  exact congrArg String.mk h

theorem validPath_allGood {s : String} (h : validPath s = true) (hne : s ≠ ".") :
    allGoodSegs (splitSegs s.toList) = true := by
  simp only [validPath, Bool.or_eq_true, decide_eq_true_eq] at h
  rcases h with h | h
  · exact absurd h hne
  · exact h

theorem cleanChars_append_dot {a : List Char} (ha : allGoodSegs (splitSegs a) = true) :
    cleanChars (a ++ '/' :: ['.']) = a := by
  have hnil := allGood_ne_nil ha
  have hhead := allGood_head_ne_slash ha
  have hh2 : ((a ++ '/' :: ['.']).head? = some '/') = False := by
    obtain ⟨c, cs, rfl⟩ := List.exists_cons_of_ne_nil hnil
    simpa using hhead
  simp only [cleanChars, hh2, decide_False]
  rw [if_neg (by simp)]
  rw [splitSegs_append, cleanAux_allGood_append false _ ha]
  have : cleanAux false (splitSegs ['.']) ((splitSegs a).reverse ++ []) = splitSegs a := by
    show cleanAux false [['.']] _ = _
    rw [show cleanAux false [['.']] ((splitSegs a).reverse ++ []) =
        cleanAux false [] ((splitSegs a).reverse ++ []) by simp [cleanAux]]
    simp [cleanAux]
  rw [this, joinSegs_splitSegs]
  simp [hnil]

theorem joinStr_dot {p : String} (h : validPath p = true) (hne : p ≠ ".") :
    joinStr p "." = p := by
  have hg := validPath_allGood h hne
  have hnil := allGood_ne_nil hg
  show (⟨joinChars p.toList ['.']⟩ : String) = p
  have h1 : p.toList.isEmpty = false := by
    cases hl : p.toList with
    | nil => exact absurd hl hnil
    | cons c cs => rfl
  simp only [joinChars, h1, Bool.false_and]
  rw [if_neg (by simp), if_neg (by simp), if_neg (by simp)]
  rw [cleanChars_append_dot hg]
  exact string_ext rfl

theorem allGood_append {a b : List Char} (ha : allGoodSegs (splitSegs a) = true)
    (hb : allGoodSegs (splitSegs b) = true) :
    allGoodSegs (splitSegs (a ++ '/' :: b)) = true := by
  rw [splitSegs_append]
  simp only [allGoodSegs, List.all_append, Bool.and_eq_true]
  exact ⟨ha, hb⟩

theorem toList_triple (p q : String) :
    (p ++ "/" ++ q).toList = p.toList ++ '/' :: q.toList := by
  rw [toList_append, toList_append]
  simp

theorem joinStr_eq {p q : String} (hp : validPath p = true) (hpne : p ≠ ".")
    (hq : validPath q = true) (hqne : q ≠ ".") :
    joinStr p q = p ++ "/" ++ q := by
  have hgp := validPath_allGood hp hpne
  have hgq := validPath_allGood hq hqne
  have hg := allGood_append hgp hgq
  apply string_ext
  rw [toList_triple]
  show joinChars p.toList q.toList = _
  have h1 : p.toList.isEmpty = false := by
    cases hl : p.toList with
    | nil => exact absurd hl (allGood_ne_nil hgp)
    | cons c cs => rfl
  have h2 : q.toList.isEmpty = false := by
    cases hl : q.toList with
    | nil => exact absurd hl (allGood_ne_nil hgq)
    | cons c cs => rfl
  simp only [joinChars, h1, h2, Bool.false_and]
  rw [if_neg (by simp), if_neg (by simp), if_neg (by simp)]
  exact cleanChars_of_good hg

theorem validPath_append {p q : String} (hp : validPath p = true) (hpne : p ≠ ".")
    (hq : validPath q = true) (hqne : q ≠ ".") :
    validPath (p ++ "/" ++ q) = true := by
  simp only [validPath, Bool.or_eq_true]
  right
  rw [toList_triple]
  exact allGood_append (validPath_allGood hp hpne) (validPath_allGood hq hqne)

theorem hasPre_append (p r : List Char) : hasPre p (p ++ r) = true := by
  induction p with
  | nil => rfl
  | cons c cs ih => simp [hasPre, ih]

theorem hasPre_length : ∀ {p s : List Char}, hasPre p s = true → p.length ≤ s.length
  | [], _, _ => by simp
  | _ :: _, [], h => by simp [hasPre] at h
  | a :: as, b :: bs, h => by
    simp only [hasPre, Bool.and_eq_true] at h
    simpa using hasPre_length h.2

theorem trimPre_append (p r : String) : trimPre (p ++ r) p = r := by
  simp only [trimPre, toList_append, hasPre_append, if_true]
  rw [List.drop_left]
  exact string_ext rfl

theorem trimPre_of_short {s p : String} (h : s.toList.length < p.toList.length) :
    trimPre s p = s := by
  simp only [trimPre]
  rw [if_neg]
  intro hc
  exact absurd (hasPre_length hc) (by omega)

/-! ### Reader-cursor lemmas -/

theorem slice_glue {α : Type} (m : List α) (p a : Nat) (hpa : p ≤ a) :
    (m.take a).drop p ++ m.drop a = m.drop p := by
  by_cases hm : p ≤ m.length
  · conv_rhs => rw [← List.take_append_drop a m]
    rw [List.drop_append_eq_append_drop]
    congr 1
    have hz : p - (m.take a).length = 0 := by
      simp only [List.length_take]
      omega
    rw [hz, List.drop_zero]
  · have h1 : (m.take a).drop p = [] := by
      apply List.drop_eq_nil_of_le
      simp only [List.length_take]
      omega
    have h2 : m.drop a = [] := List.drop_eq_nil_of_le (by omega)
    have h3 : m.drop p = [] := List.drop_eq_nil_of_le (by omega)
    rw [h1, h2, h3]
    rfl

theorem slice_glue2 {α : Type} (m : List α) (p a b : Nat) (hpa : p ≤ a) (hab : a ≤ b) :
    (m.take a).drop p ++ (m.take b).drop a = (m.take b).drop p := by
  have h : m.take a = (m.take b).take a := by
    rw [List.take_take, min_eq_left hab]
  rw [h]
  exact slice_glue (m.take b) p a hpa

/-- Characterization of a successful `dirReader.ReadDir` call: the
returned slice is the contiguous segment of the stored child list between
the old and the new cursor, in stored order. -/
theorem readDir_ok_spec {d : DirReader} {n : Int} {l' : List Entry} {d' : DirReader}
    (h : d.ReadDir n = (.ok l', d')) :
    d'.info = d.info ∧
    l' = (d.info.entries.take d'.pos).drop d.pos ∧
    d'.pos ≤ d.info.entries.length ∧
    (d'.pos = d.info.entries.length ∨ d.pos < d'.pos) := by
  by_cases hn : n ≤ 0
  · simp only [DirReader.ReadDir, if_pos hn] at h
    rw [Prod.mk.injEq] at h
    obtain ⟨h1, h2⟩ := h
    injection h1 with h1
    subst h2
    refine ⟨rfl, ?_, le_refl _, .inl rfl⟩
    rw [List.take_length]
    exact h1.symm
  · simp only [DirReader.ReadDir, if_neg hn] at h
    split at h
    · exact absurd h (by simp)
    · split at h
      · exact absurd h (by simp)
      · rename_i hlen hlen0
        rw [Prod.mk.injEq] at h
        obtain ⟨h1, h2⟩ := h
        injection h1 with h1
        subst h2
        refine ⟨rfl, h1.symm, by simp, .inr ?_⟩
        simp only [not_le] at hlen
        have hn1 : 1 ≤ n.toNat := by omega
        simp only
        omega

/-! ### Helper lemmas about the index builder -/

theorem walkUp_files (now fuel : Nat) (z : ZipFS) (e : Entry) (d : String) :
    (walkUp now fuel z e d).files = z.files := by
  induction fuel generalizing z e d with
  | zero => rfl
  | succ fuel ih =>
    simp only [walkUp]
    cases z.dirs d with
    | some parent => rfl
    | none => rw [ih]; rfl

theorem insertDir_dirs_isSome (z : ZipFS) (k : String) (v : DirData) (x : String)
    (h : (z.dirs x).isSome) : ((z.insertDir k v).dirs x).isSome := by
  simp only [ZipFS.insertDir]
  split <;> simp [h]

theorem walkUp_dirs_isSome (now fuel : Nat) (z : ZipFS) (e : Entry) (d x : String)
    (h : (z.dirs x).isSome) : ((walkUp now fuel z e d).dirs x).isSome := by
  induction fuel generalizing z e d with
  | zero => exact h
  | succ fuel ih =>
    simp only [walkUp]
    cases z.dirs d with
    | some parent => exact insertDir_dirs_isSome _ _ _ _ h
    | none => exact ih _ _ _ (insertDir_dirs_isSome _ _ _ _ h)

theorem indexRecord_root_isSome (now : Nat) (z : ZipFS) (f : FileHeader)
    (h : (z.dirs ".").isSome) : ((indexRecord now z f).dirs ".").isSome := by
  simp only [indexRecord]
  split
  · exact h
  split
  · exact h
  split
  · split
    · exact h
    · exact walkUp_dirs_isSome _ _ _ _ _ _ (insertDir_dirs_isSome _ _ _ _ h)
  · exact walkUp_dirs_isSome _ _ _ _ _ _ h

theorem foldl_root_isSome (now : Nat) (records : List FileHeader) (z : ZipFS)
    (h : (z.dirs ".").isSome) :
    ((records.foldl (indexRecord now) z).dirs ".").isSome := by
  induction records generalizing z with
  | nil => exact h
  | cons r rest ih => exact ih _ (indexRecord_root_isSome now z r h)

/-! ### Claim theorems -/

/-- C8: index construction is total and never fails: absolute paths are
silently skipped, directory records with nonzero declared uncompressed
size are silently skipped (each such record leaves the index unchanged,
so the rest of the list is processed from the same state), and every
build yields an index that still holds the root directory. -/
theorem buildIndex_total_skips :
    (∀ (now : Nat) (z : ZipFS) (f : FileHeader),
      startsSlash (cleanStr f.name) = true → indexRecord now z f = z) ∧
    (∀ (now : Nat) (z : ZipFS) (f : FileHeader),
      (f.name.toList.isEmpty || f.name.toList.getLast? = some '/') = true →
      f.uncompressedSize ≠ 0 → indexRecord now z f = z) ∧
    (∀ (now : Nat) (f : FileHeader) (rest : List FileHeader) (z : ZipFS),
      indexRecord now z f = z →
      (f :: rest).foldl (indexRecord now) z = rest.foldl (indexRecord now) z) ∧
    (∀ (now : Nat) (records : List FileHeader),
      ((buildIndex now records).dirs ".").isSome) := by
  refine ⟨?_, ?_, ?_, ?_⟩
  · intro now z f h
    unfold indexRecord
    by_cases hdot : cleanStr f.name = "."
    · simp [hdot]
    · simp [hdot, h]
  · intro now z f hd hs
    simp only [indexRecord]
    by_cases hdot : cleanStr f.name = "."
    · rw [if_pos hdot]
    rw [if_neg hdot]
    by_cases habs : startsSlash (cleanStr f.name) = true
    · rw [if_pos habs]
    rw [if_neg habs, if_pos hd, if_pos hs]
  · intro now f rest z h
    simp only [List.foldl_cons, h]
  · intro now records
    exact foldl_root_isSome now records _ (by simp)

/-- C8 witness: the skip branches and totality at concrete inputs: an
absolute record, a directory record with nonzero size, and a build over
both still holding the root. -/
theorem buildIndex_total_skips_witness :
    indexRecord 0 (buildIndex 0 []) ⟨"/abs/x", 0, 0, 0⟩ = buildIndex 0 [] ∧
    indexRecord 0 (buildIndex 0 []) ⟨"d/", 5, 0, 0⟩ = buildIndex 0 [] ∧
    ((buildIndex 0 [⟨"/abs/x", 0, 0, 0⟩, ⟨"d/", 5, 0, 0⟩]).dirs ".").isSome := by
  refine ⟨?_, ?_, ?_⟩
  · exact buildIndex_total_skips.1 0 _ _ (by decide)
  · exact buildIndex_total_skips.2.1 0 _ _ (by decide) (by decide)
  · exact buildIndex_total_skips.2.2.2 0 _

/-- C1 counterexample: two archive records whose raw paths collide after
normalization (`"a//b"` and `"a/b"`) are NOT deduplicated: the parent
directory ends up with two children both named `"b"` (so its listing has
a duplicate name), and the file lookup map holds the LAST-seen record's
data, not the first-seen. -/
theorem buildIndex_dup_counterexample :
    ((buildIndex 0 [⟨"a//b", 1, 0, 0⟩, ⟨"a/b", 7, 1, 2⟩]).dirs "a").map
        (fun d => d.entries.map Entry.entryName) = some ["b", "b"] ∧
    ¬ (["b", "b"] : List String).Nodup ∧
    Except.map (fun l => l.map Entry.entryName)
        ((buildIndex 0 [⟨"a//b", 1, 0, 0⟩, ⟨"a/b", 7, 1, 2⟩]).ReadDir "a") =
      .ok ["b", "b"] ∧
    (buildIndex 0 [⟨"a//b", 1, 0, 0⟩, ⟨"a/b", 7, 1, 2⟩]).files "a/b" =
      some ⟨"a/b", 7, 1, 2⟩ ∧
    (⟨"a/b", 7, 1, 2⟩ : FileHeader) ≠ ⟨"a//b", 1, 0, 0⟩ := by
  refine ⟨by decide, by decide, by rfl, by decide, by decide⟩

/-- C1 amended: `buildIndex` performs no deduplication.  For a file
record (with a relative, non-root normalized path) the lookup map is
overwritten — the LATEST record's data wins — and a child entry is
appended to the already-existing parent directory unconditionally, even
when an entry with the same name is already present. -/
theorem indexRecord_no_dedup (now : Nat) (z : ZipFS) (f : FileHeader)
    (hfile : (f.name.toList.isEmpty || f.name.toList.getLast? = some '/') = false)
    (hdot : cleanStr f.name ≠ ".")
    (habs : startsSlash (cleanStr f.name) = false) :
    (indexRecord now z f).files (cleanStr f.name) = some f ∧
    (∀ p, z.dirs (dirStr (cleanStr f.name)) = some p →
      (indexRecord now z f).dirs (dirStr (cleanStr f.name)) =
        some { p with entries := p.entries ++ [Entry.fileE f] }) := by
  have hrec : indexRecord now z f =
      walkUp now ((cleanStr f.name).length + 2)
        (z.insertFile (cleanStr f.name) f) (.fileE f) (dirStr (cleanStr f.name)) := by
    simp only [indexRecord]
    rw [if_neg hdot, if_neg (by rw [habs]; simp), if_neg (by rw [hfile]; simp)]
  constructor
  · rw [hrec, walkUp_files]
    simp [ZipFS.insertFile]
  · intro p hp
    rw [hrec]
    have : (cleanStr f.name).length + 2 = ((cleanStr f.name).length + 1) + 1 := rfl
    rw [this]
    simp only [walkUp]
    have hins : (z.insertFile (cleanStr f.name) f).dirs = z.dirs := rfl
    rw [hins, hp]
    simp [ZipFS.insertDir]

/-- C1 amended witness: concrete duplicate file records show the map
overwrite and the duplicate append. -/
theorem indexRecord_no_dedup_witness :
    (indexRecord 0 (buildIndex 0 [⟨"a//b", 1, 0, 0⟩]) ⟨"a/b", 7, 1, 2⟩).files "a/b" =
      some ⟨"a/b", 7, 1, 2⟩ ∧
    (indexRecord 0 (buildIndex 0 [⟨"a//b", 1, 0, 0⟩]) ⟨"a/b", 7, 1, 2⟩).dirs "a" =
      some { name := "a", modTime := 0,
             entries := [Entry.fileE ⟨"a//b", 1, 0, 0⟩, Entry.fileE ⟨"a/b", 7, 1, 2⟩] } := by
  have h := indexRecord_no_dedup 0 (buildIndex 0 [⟨"a//b", 1, 0, 0⟩]) ⟨"a/b", 7, 1, 2⟩
    (by decide) (by decide) (by decide)
  refine ⟨h.1, ?_⟩
  have h2 := h.2 { name := "a", modTime := 0, entries := [Entry.fileE ⟨"a//b", 1, 0, 0⟩] }
    (by decide)
  exact h2

/-- C9: every mode the filesystem reports is read-only: `Stat` on any
opened handle and `Info` on any directory entry report a mode with all
write bits (`0222`) cleared, and directories always report the fixed
mode `fs.ModeDir | 0555`. -/
theorem readonly_modes :
    (∀ f : OpenedFile, f.statMode &&& 0o222 = 0) ∧
    (∀ e : Entry, e.infoMode &&& 0o222 = 0) ∧
    (∀ (d : DirData) (p : String), (OpenedFile.dirH d p).statMode = dirInfoMode) ∧
    dirInfoMode = 2 ^ 31 ||| 0o555 := by
  have hro : ∀ m : Nat, roModeOf m &&& 0o222 = 0 := by
    intro m
    apply Nat.eq_of_testBit_eq
    intro i
    rw [Nat.testBit_land, Nat.zero_testBit, roModeOf, andNot,
      Nat.testBit_bitwise (by simp)]
    cases h : Nat.testBit 0o222 i <;> simp [h]
  have hdir : dirInfoMode &&& 0o222 = 0 := by decide
  refine ⟨?_, ?_, fun _ _ => rfl, rfl⟩
  · intro f
    cases f with
    | dirH d p => exact hdir
    | fileH f => exact hro f.mode
  · intro e
    cases e with
    | fileE f => exact hro f.mode
    | dirE n t => exact hdir

/-- C10: closing a directory reader always succeeds (also on repeated
`Close`) and resets the cursor to the start, so a subsequent `ReadDir`
enumerates the directory from the beginning again. -/
theorem dirReader_close_resets (d : DirReader) :
    d.Close.1 = .ok () ∧
    d.Close.2 = { d with pos := 0 } ∧
    (d.Close.2).Close.1 = .ok () ∧
    (d.Close.2).Close.2 = { d with pos := 0 } ∧
    (∀ n : Int, n ≤ 0 → ((d.Close.2).ReadDir n).1 = .ok d.info.entries) := by
  refine ⟨rfl, rfl, rfl, rfl, ?_⟩
  intro n hn
  simp only [DirReader.Close, DirReader.ReadDir, if_pos hn]
  simp

/-- C10 witness: a concrete reader with a consumed cursor re-enumerates
its two entries after `Close`. -/
theorem dirReader_close_resets_witness :
    ((DirReader.mk ⟨"x", 0, [Entry.dirE "a" 0, Entry.dirE "b" 0]⟩ "x" 2).Close.1 = .ok ()) ∧
    (((DirReader.mk ⟨"x", 0, [Entry.dirE "a" 0, Entry.dirE "b" 0]⟩ "x" 2).Close.2.ReadDir (-1)).1 =
      .ok [Entry.dirE "a" 0, Entry.dirE "b" 0]) := by
  refine ⟨(dirReader_close_resets _).1, ?_⟩
  exact (dirReader_close_resets (DirReader.mk ⟨"x", 0, [Entry.dirE "a" 0, Entry.dirE "b" 0]⟩ "x" 2)).2.2.2.2
    (-1) (by decide)

/-- C6: `dirReader.ReadDir` pagination: `n <= 0` returns all remaining
entries and never errors (an empty successful slice when nothing
remains); `n > 0` returns at most `n` entries, and at end-of-sequence
returns `io.EOF` rather than an empty success; a 2-child directory read
with two bounded calls of 1 yields the children across the calls and a
third bounded call yields `io.EOF`. -/
theorem dirReader_pagination :
    (∀ (d : DirReader) (n : Int), n ≤ 0 →
      (d.ReadDir n).1 = .ok (d.info.entries.drop d.pos) ∧
      (d.info.entries.length ≤ d.pos → (d.ReadDir n).1 = .ok [])) ∧
    (∀ (d : DirReader) (n : Int), 0 < n →
      (d.info.entries.length ≤ d.pos → (d.ReadDir n).1 = .error .eofErr) ∧
      (∀ l, (d.ReadDir n).1 = .ok l → l.length ≤ n.toNat)) ∧
    (∀ (nm p : String) (mt : Nat) (e1 e2 : Entry),
      ((DirReader.mk ⟨nm, mt, [e1, e2]⟩ p 0).ReadDir 1).1 = .ok [e1] ∧
      (((DirReader.mk ⟨nm, mt, [e1, e2]⟩ p 0).ReadDir 1).2.ReadDir 1).1 = .ok [e2] ∧
      ((((DirReader.mk ⟨nm, mt, [e1, e2]⟩ p 0).ReadDir 1).2.ReadDir 1).2.ReadDir 1).1 =
        .error .eofErr) := by
  refine ⟨?_, ?_, ?_⟩
  · intro d n hn
    refine ⟨?_, ?_⟩
    · simp [DirReader.ReadDir, if_pos hn]
    · intro h
      simp [DirReader.ReadDir, if_pos hn, List.drop_eq_nil_of_le h]
  · intro d n hn
    have hts : ¬ n ≤ 0 := by omega
    constructor
    · intro h
      simp only [DirReader.ReadDir, if_neg hts, if_pos h]
    · intro l hl
      simp only [DirReader.ReadDir, if_neg hts] at hl
      split at hl
      · exact absurd hl (by simp)
      · split at hl
        · exact absurd hl (by simp)
        · simp only [Except.ok.injEq] at hl
          subst hl
          simp only [List.length_drop, List.length_take]
          omega
  · intro nm p mt e1 e2
    exact ⟨rfl, rfl, rfl⟩

/-- C6 witness: pagination instantiated on a concrete two-entry
directory. -/
theorem dirReader_pagination_witness :
    ((DirReader.mk ⟨".", 0, [Entry.dirE "u" 0, Entry.dirE "v" 0]⟩ "." 0).ReadDir 0).1 =
      .ok [Entry.dirE "u" 0, Entry.dirE "v" 0] ∧
    ((DirReader.mk ⟨".", 0, [Entry.dirE "u" 0, Entry.dirE "v" 0]⟩ "." 2).ReadDir 3).1 =
      .error .eofErr := by
  constructor
  · exact (dirReader_pagination.1 (DirReader.mk ⟨".", 0, [Entry.dirE "u" 0, Entry.dirE "v" 0]⟩ "." 0)
      0 (by decide)).1
  · exact (dirReader_pagination.2.1 (DirReader.mk ⟨".", 0, [Entry.dirE "u" 0, Entry.dirE "v" 0]⟩ "." 2)
      3 (by decide)).1 (by decide)

/-- C7: boundary behaviour of `Open` on the root filesystem: every
invalid path (`"../x"`, `"/x"`, `""`, and any other violation of the
relative-path contract) yields `ErrInvalid`; a valid path matching no
indexed directory and no indexed file yields `ErrNotExist`; the
operation is a total function. -/
theorem zipFS_open_boundary :
    (∀ (z : ZipFS) (name : String), validPath name = false →
      z.Open name = .error (.pathErr "open" name .invalid)) ∧
    (∀ (z : ZipFS) (name : String), validPath name = true →
      z.dirs name = none → z.files name = none →
      z.Open name = .error (.pathErr "open" name .notExist)) ∧
    validPath "../x" = false ∧ validPath "/x" = false ∧ validPath "" = false := by
  refine ⟨?_, ?_, by decide, by decide, by decide⟩
  · intro z name h
    simp [ZipFS.Open, h]
  · intro z name hv hd hf
    simp [ZipFS.Open, cleanStr_of_valid hv, hv, hd, hf]

/-- C7 witness: the boundary inputs evaluated on a concrete index. -/
theorem zipFS_open_boundary_witness :
    (buildIndex 0 [⟨"hello.txt", 1, 0, 0⟩]).Open "../x" =
      .error (.pathErr "open" "../x" .invalid) ∧
    (buildIndex 0 [⟨"hello.txt", 1, 0, 0⟩]).Open "/x" =
      .error (.pathErr "open" "/x" .invalid) ∧
    (buildIndex 0 [⟨"hello.txt", 1, 0, 0⟩]).Open "" =
      .error (.pathErr "open" "" .invalid) ∧
    (buildIndex 0 [⟨"hello.txt", 1, 0, 0⟩]).Open "missing/path" =
      .error (.pathErr "open" "missing/path" .notExist) := by
  refine ⟨?_, ?_, ?_, ?_⟩
  · exact zipFS_open_boundary.1 _ "../x" (by decide)
  · exact zipFS_open_boundary.1 _ "/x" (by decide)
  · exact zipFS_open_boundary.1 _ "" (by decide)
  · exact zipFS_open_boundary.2.1 _ "missing/path" (by decide) (by decide) (by decide)

/-- C2 counterexample: a directory reader obtained from `Open` returns
entries in archive/build order, NOT sorted by name: an archive listing
`"b"` before `"a"` yields a reader whose `ReadDir` produces `[b, a]`,
which is not sorted. -/
theorem dirReader_unsorted_counterexample :
    (buildIndex 0 [⟨"b", 1, 0, 0⟩, ⟨"a", 2, 0, 0⟩]).Open "." =
      .ok (.dirH ⟨".", 0, [.fileE ⟨"b", 1, 0, 0⟩, .fileE ⟨"a", 2, 0, 0⟩]⟩ ".") ∧
    (DirReader.ReadDir ⟨⟨".", 0, [.fileE ⟨"b", 1, 0, 0⟩, .fileE ⟨"a", 2, 0, 0⟩]⟩, ".", 0⟩ (-1)).1 =
      .ok [.fileE ⟨"b", 1, 0, 0⟩, .fileE ⟨"a", 2, 0, 0⟩] ∧
    ¬ List.Sorted nameLe [Entry.fileE ⟨"b", 1, 0, 0⟩, Entry.fileE ⟨"a", 2, 0, 0⟩] := by
  refine ⟨by rfl, by rfl, by decide⟩

/-- C2 amended: `dirReader.ReadDir` presents entries in the index's
build order (the stored child-list order), not sorted: an unbounded call
returns the remainder of the stored list as is, and successive
successful calls return consecutive contiguous segments of the stored
list, in order.  (Sorting happens only in the filesystem-level
`ReadDir`.) -/
theorem dirReader_readDir_build_order (d : DirReader) :
    (∀ n : Int, n ≤ 0 → (d.ReadDir n).1 = .ok (d.info.entries.drop d.pos)) ∧
    (∀ (n₁ n₂ : Int) (l₁ l₂ : List Entry) (d₁ d₂ : DirReader),
      d.ReadDir n₁ = (.ok l₁, d₁) → d₁.ReadDir n₂ = (.ok l₂, d₂) →
      l₁ ++ l₂ = (d.info.entries.take d₂.pos).drop d.pos) := by
  constructor
  · intro n hn
    simp [DirReader.ReadDir, if_pos hn]
  · intro n₁ n₂ l₁ l₂ d₁ d₂ h1 h2
    obtain ⟨hi1, hl1, hb1, hd1⟩ := readDir_ok_spec h1
    obtain ⟨hi2, hl2, hb2, hd2⟩ := readDir_ok_spec h2
    rw [hi1] at hl2 hb2 hd2
    subst hl1 hl2
    rcases hd1 with he | hlt
    · rcases hd2 with he2 | hlt2
      · rw [he, he2, List.take_length]
        simp
      · omega
    · have hab : d₁.pos ≤ d₂.pos := by
        rcases hd2 with he2 | hlt2 <;> omega
      exact slice_glue2 _ _ _ _ (le_of_lt hlt) hab

/-- C2 amended witness: two bounded calls on a build-ordered two-entry
reader return the contiguous entries in stored (unsorted) order. -/
theorem dirReader_readDir_build_order_witness :
    ((DirReader.mk ⟨".", 0, [Entry.dirE "b" 0, Entry.dirE "a" 0]⟩ "." 0).ReadDir (-1)).1 =
      .ok [Entry.dirE "b" 0, Entry.dirE "a" 0] ∧
    [Entry.dirE "b" 0] ++ [Entry.dirE "a" 0] =
      ([Entry.dirE "b" 0, Entry.dirE "a" 0].take 2).drop 0 := by
  constructor
  · exact (dirReader_readDir_build_order
      (DirReader.mk ⟨".", 0, [Entry.dirE "b" 0, Entry.dirE "a" 0]⟩ "." 0)).1 (-1) (by decide)
  · exact (dirReader_readDir_build_order
      (DirReader.mk ⟨".", 0, [Entry.dirE "b" 0, Entry.dirE "a" 0]⟩ "." 0)).2
      1 1 [Entry.dirE "b" 0] [Entry.dirE "a" 0]
      (DirReader.mk ⟨".", 0, [Entry.dirE "b" 0, Entry.dirE "a" 0]⟩ "." 1)
      (DirReader.mk ⟨".", 0, [Entry.dirE "b" 0, Entry.dirE "a" 0]⟩ "." 2)
      (by rfl) (by rfl)

/-- C5: for an indexed directory, the filesystem-level `ReadDir` returns
its children sorted by name as a copy (a permutation of the stored child
list, leaving the index untouched), deterministically — two calls return
the same listing; for a valid path that is not an indexed directory it
fails with `ErrNotExist`. -/
theorem zipFS_readDir_sorted (z : ZipFS) (name : String) (hv : validPath name = true) :
    (∀ d, z.dirs name = some d →
      z.ReadDir name = .ok (sortEntries d.entries) ∧
      List.Sorted nameLe (sortEntries d.entries) ∧
      List.Perm (sortEntries d.entries) d.entries) ∧
    (z.dirs name = none →
      z.ReadDir name = .error (.pathErr "readdir" name .notExist)) := by
  constructor
  · intro d hd
    refine ⟨?_, List.sorted_insertionSort nameLe d.entries,
      List.perm_insertionSort nameLe d.entries⟩
    simp [ZipFS.ReadDir, hv, cleanStr_of_valid hv, hd, sortEntries]
  · intro hd
    simp [ZipFS.ReadDir, hv, cleanStr_of_valid hv, hd]

/-- C5 witness: a concrete index built from unsorted records lists a
directory sorted, and a missing directory yields `ErrNotExist`. -/
theorem zipFS_readDir_sorted_witness :
    (buildIndex 0 [⟨"b", 1, 0, 0⟩, ⟨"a", 2, 0, 0⟩]).ReadDir "." =
      .ok (sortEntries [Entry.fileE ⟨"b", 1, 0, 0⟩, Entry.fileE ⟨"a", 2, 0, 0⟩]) ∧
    (buildIndex 0 [⟨"b", 1, 0, 0⟩]).ReadDir "nope" =
      .error (.pathErr "readdir" "nope" .notExist) := by
  constructor
  · exact ((zipFS_readDir_sorted (buildIndex 0 [⟨"b", 1, 0, 0⟩, ⟨"a", 2, 0, 0⟩]) "."
      (by decide)).1 ⟨".", 0, [Entry.fileE ⟨"b", 1, 0, 0⟩, Entry.fileE ⟨"a", 2, 0, 0⟩]⟩
      (by rfl)).1
  · exact (zipFS_readDir_sorted (buildIndex 0 [⟨"b", 1, 0, 0⟩]) "nope" (by decide)).2 (by rfl)

/-- C3: taking the sub-tree at the canonical root token `"."` returns
the same view value: the root filesystem returns itself (not a wrapped
view), and a sub view returns a view with the same parent and the same
stored path. -/
theorem sub_root_identity :
    (∀ z : ZipFS, z.Sub "." = .ok (.rootV z)) ∧
    (∀ (z : ZipFS) (pre : String), validPath pre = true → pre ≠ "." →
      (z.dirs pre).isSome → SubFS.Sub ⟨z, pre⟩ "." = .ok (.subV ⟨z, pre⟩)) := by
  constructor
  · intro z
    rfl
  · intro z pre hv hne hsome
    have hinner : z.Sub pre = .ok (.subV ⟨z, pre⟩) := by
      simp only [ZipFS.Sub]
      rw [if_neg (by simp [hv]), cleanStr_of_valid hv, if_neg hne]
      obtain ⟨dd, hdd⟩ := Option.isSome_iff_exists.mp hsome
      rw [hdd]
    simp only [SubFS.Sub]
    rw [if_neg (by decide)]
    show (match z.Sub (joinStr pre ".") with
          | Except.ok v => Except.ok v
          | Except.error e => Except.error (rebaseErr pre e)) = _
    rw [joinStr_dot hv hne, hinner]

/-- C3 witness: root and sub-view identity on a concrete index. -/
theorem sub_root_identity_witness :
    (buildIndex 0 [⟨"d/f", 1, 0, 0⟩]).Sub "." =
      .ok (.rootV (buildIndex 0 [⟨"d/f", 1, 0, 0⟩])) ∧
    SubFS.Sub ⟨buildIndex 0 [⟨"d/f", 1, 0, 0⟩], "d"⟩ "." =
      .ok (.subV ⟨buildIndex 0 [⟨"d/f", 1, 0, 0⟩], "d"⟩) := by
  constructor
  · exact sub_root_identity.1 (buildIndex 0 [⟨"d/f", 1, 0, 0⟩])
  · exact sub_root_identity.2 (buildIndex 0 [⟨"d/f", 1, 0, 0⟩]) "d"
      (by decide) (by decide) (by decide)

/-- Observational equality of opened handles up to the reported path:
the same directory data, or the same file record. -/
def OpenedFile.sameContent : OpenedFile → OpenedFile → Prop
  | .dirH d _, .dirH d' _ => d = d'
  | .fileH f, .fileH f' => f = f'
  | _, _ => False

/-- C4: round-trip through a sub-tree view: for an existing directory
`pre` and a valid relative path `q`, `Open` on the view agrees with
`Open` on the parent at the joined path `pre/q` — success/failure kind
and content coincide — and a reported error carries the path `q`, with
the prefix stripped. -/
theorem subFS_open_roundtrip (z : ZipFS) (pre q : String)
    (hpre : validPath pre = true) (hpne : pre ≠ ".")
    (hdir : (z.dirs pre).isSome) (hq : validPath q = true) :
    (q ≠ "." → joinStr pre q = pre ++ "/" ++ q) ∧
    (∀ f, z.Open (joinStr pre q) = .ok f →
      SubFS.Open ⟨z, pre⟩ q = .ok (rebaseFile pre f) ∧
      OpenedFile.sameContent f (rebaseFile pre f)) ∧
    (∀ op p k, z.Open (joinStr pre q) = .error (.pathErr op p k) →
      SubFS.Open ⟨z, pre⟩ q = .error (.pathErr op q k)) := by
  refine ⟨fun hq' => joinStr_eq hpre hpne hq hq', ?_, ?_⟩
  · intro f hf
    constructor
    · simp only [SubFS.Open]
      rw [if_neg (by simp [hq])]
      show (match z.Open (joinStr pre q) with
            | Except.ok f => Except.ok (rebaseFile pre f)
            | Except.error e => Except.error (rebaseErr pre e)) = _
      rw [hf]
    · cases f <;> simp [rebaseFile, OpenedFile.sameContent]
  · intro op p k he
    by_cases hq' : q = "."
    · subst hq'
      rw [joinStr_dot hpre hpne] at he
      obtain ⟨dd, hdd⟩ := Option.isSome_iff_exists.mp hdir
      simp only [ZipFS.Open] at he
      rw [if_neg (by simp [hpre]), cleanStr_of_valid hpre, hdd] at he
      exact absurd he (by simp)
    · have hj := joinStr_eq hpre hpne hq hq'
      have hjv : validPath (pre ++ "/" ++ q) = true := validPath_append hpre hpne hq hq'
      rw [hj] at he
      have hepath : p = pre ++ "/" ++ q ∧ op = "open" ∧ k = ErrKind.notExist := by
        simp only [ZipFS.Open] at he
        rw [if_neg (by simp [hjv]), cleanStr_of_valid hjv] at he
        rcases hd : z.dirs (pre ++ "/" ++ q) with _ | dd
        · rw [hd] at he
          rcases hfm : z.files (pre ++ "/" ++ q) with _ | ff
          · rw [hfm] at he
            injection he with he'
            injection he' with e1 e2 e3
            exact ⟨e2.symm, e1.symm, e3.symm⟩
          · rw [hfm] at he
            exact absurd he (by simp)
        · rw [hd] at he
          exact absurd he (by simp)
      obtain ⟨hp, hop, hk⟩ := hepath
      subst hp hop hk
      simp only [SubFS.Open]
      rw [if_neg (by simp [hq])]
      show (match z.Open (joinStr pre q) with
            | Except.ok f => Except.ok (rebaseFile pre f)
            | Except.error e => Except.error (rebaseErr pre e)) = _
      rw [hj, he]
      simp only [rebaseErr]
      rw [trimPre_append (pre ++ "/") q]

/-- C4 witness: a missing path opened through a concrete sub view
reports the relative path in its `ErrNotExist`. -/
theorem subFS_open_roundtrip_witness :
    joinStr "d" "x" = "d" ++ "/" ++ "x" ∧
    SubFS.Open ⟨buildIndex 0 [⟨"d/f", 1, 0, 0⟩], "d"⟩ "x" =
      .error (.pathErr "open" "x" .notExist) := by
  have h := subFS_open_roundtrip (buildIndex 0 [⟨"d/f", 1, 0, 0⟩]) "d" "x"
    (by decide) (by decide) (by decide) (by decide)
  refine ⟨h.1 (by decide), ?_⟩
  exact h.2.2 "open" ("d" ++ "/" ++ "x") .notExist (by rw [h.1 (by decide)]; rfl)

end Zipfs
